import Mathlib

/-
Verification of the LESS variable extractor (LESSVariableExtractor.py).

The program rewrites lines of the form `property: value;` in a selected
region, replacing each value by a freshly named variable and collecting
the variable declarations, which are then inserted at absolute position 0
of the document.  We embed the per-line regular-expression match, the
per-line rewriting, the region fold (which walks lines in reverse order),
and the output assembly as executable Lean functions over `List Char`,
and prove the specified properties about them.
-/

namespace LESSExtract

/-- Python `\s` on the characters that can occur in a source line
(the ASCII whitespace characters recognised by `str.strip` and `\s`). -/
def isPySpace (c : Char) : Bool :=
  c == ' ' || c == '\t' || c == '\n' || c == '\r' || c == '\x0b' || c == '\x0c'

/-- Decimal digit character; the `% 10` keeps it total, matching its use. -/
def decChar (n : Nat) : Char := Char.ofNat (48 + n % 10)

/-- Helper for `natChars`, with fuel for termination. -/
def natCharsAux : Nat → Nat → List Char
  | 0, _ => []
  | f + 1, n => if n < 10 then [decChar n] else natCharsAux f (n / 10) ++ [decChar n]

/-- Decimal representation of a natural number, modelling Python `str(n)`
for a non-negative counter. -/
def natChars (n : Nat) : List Char := natCharsAux (n + 1) n

/-- Python `str.strip()`: remove leading and trailing whitespace. -/
def pyStrip (s : List Char) : List Char :=
  (((s.dropWhile isPySpace).reverse).dropWhile isPySpace).reverse

/-- Python `sep.join(xs)`: the parts joined with the separator between
consecutive parts. -/
def joinSep (sep : List Char) : List (List Char) → List Char
  | [] => []
  | [x] => x
  | x :: y :: rest => x ++ sep ++ joinSep sep (y :: rest)

/-- Python `s.split(" ")`: split on every single space, keeping empty
pieces; the result is never empty. -/
def splitOnSpace : List Char → List (List Char)
  | [] => [[]]
  | c :: rest =>
    let ts := splitOnSpace rest
    if c = ' ' then [] :: ts
    else (c :: ts.headI) :: ts.tail

/-- The literal `!important` (variable `important_text` in the source). -/
def important_text : List Char := "!important".data

/-- The list starts with a non-whitespace character (hence is nonempty). -/
def headNotSpace : List Char → Bool
  | [] => false
  | c :: _ => !isPySpace c

/-! ## The regular-expression match

The source applies `re.search(r"^(\s*)(.+)(\s*):(\s*)([^@]+)(\s*);(.*)$", line)`
to each line.  Lines come from `view.split_by_newlines`, so they contain no
newline character; on such strings `^`/`$` anchor the match to the whole
string and `.` is an arbitrary character.  We model the match with Python's
backtracking order made explicit: each quantified group tries its longest
candidate first, and the first full success (in depth-first order) wins,
which is exactly the value CPython's engine returns. -/

/-- The seven captured groups of the declaration pattern. -/
structure LineMatch where
  g1 : List Char
  g2 : List Char
  g3 : List Char
  g4 : List Char
  g5 : List Char
  g6 : List Char
  g7 : List Char
deriving DecidableEq

/-- All ways to split off a leading run of characters satisfying `p`
(the candidates of a greedy character-class star), longest first. -/
def runSplits (p : Char → Bool) : List Char → List (List Char × List Char)
  | [] => [([], [])]
  | c :: rest =>
    if p c then
      (runSplits p rest).map (fun q => (c :: q.1, q.2)) ++ [([], c :: rest)]
    else [([], c :: rest)]

/-- All splits of a list (the candidates of a greedy `.`-star), longest
first. -/
def splitsDesc (s : List Char) : List (List Char × List Char) :=
  ((List.range (s.length + 1)).reverse).map (fun k => (s.take k, s.drop k))

/-- Greedy match of the tail fragment `(\s*)([^@]+)(\s*);(.*)$` against the
part of the line after the colon, returning groups 4, 5, 6 and 7. -/
def matchTail (t : List Char) : Option (List Char × List Char × List Char × List Char) :=
  (runSplits isPySpace t).findSome? fun a =>
    (runSplits (fun c => !(c == '@')) a.2).findSome? fun b =>
      if b.1 = [] then none
      else
        (runSplits isPySpace b.2).findSome? fun d =>
          match d.2 with
          | c :: g7 => if c = ';' then some (a.1, b.1, d.1, g7) else none
          | [] => none

/-- Greedy match of `^(\s*)(.+)(\s*):(\s*)([^@]+)(\s*);(.*)$` against a full
(newline-free) line, in Python's backtracking order. -/
def matchLine (s : List Char) : Option LineMatch :=
  (runSplits isPySpace s).findSome? fun a =>
    (splitsDesc a.2).findSome? fun b =>
      if b.1 = [] then none
      else
        (runSplits isPySpace b.2).findSome? fun d =>
          match d.2 with
          | c :: t =>
            if c = ':' then
              (matchTail t).map fun q => ⟨a.1, b.1, d.1, q.1, q.2.1, q.2.2.1, q.2.2.2⟩
            else none
          | [] => none

/-! ## The per-line rewriting

This embeds the body of the `if match:` branch of `extract_variables`:
the construction of `prefixed_name`, the shorthand loop with its
`!important` handling, and the reconstruction of the line from the
captured whitespace spans. -/

/-- The base variable name `prefix + '-' + 'lessvar' + str(counter) + '-' +
css_property` (`prefixed_name` in the source). -/
def lessvarName (pfx : List Char) (cnt : Nat) (css_property : List Char) : List Char :=
  pfx ++ "-lessvar".data ++ natChars cnt ++ "-".data ++ css_property

/-- The sub-value name `prefixed_name + '-' + 'lessv' + str(counter) + 'sv' +
str(shorthand_counter)` from the shorthand branch. -/
def subName (base : List Char) (cnt : Nat) (k : Nat) : List Char :=
  base ++ "-lessv".data ++ natChars cnt ++ "sv".data ++ natChars k

/-- The loop `for value in shorthand:` of the source, threading the
shorthand counter and the two string accumulators.  `special` is the
loop-invariant condition `important and len(shorthand) == 1`, under which
the bare base name is used instead of a sub-indexed name.  Returns the
final `(shorthand_variables, shorthand_replacement)`. -/
def shorthandLoop (base : List Char) (cnt : Nat) (special : Bool) :
    List (List Char) → Nat → List Char → List Char → List Char × List Char
  | [], _, sv, sr => (sv, sr)
  | v :: rest, sc, sv, sr =>
    let nm := if special then base else subName base cnt (sc + 1)
    shorthandLoop base cnt special rest (sc + 1)
      (sv ++ nm ++ ": ".data ++ v ++ [';', '\n'])
      (sr ++ ' ' :: nm)

/-- Processing of one line: on a pattern match, rebuild the line with the
value span replaced and produce the declaration entry (or entries, joined
by newlines, for a shorthand value); otherwise leave the line untouched.
Returns `(new line text, new counter, entries appended to the variables
list)`.  The only "failure" is a non-matching line, which passes through
unchanged. -/
def processLine (pfx : List Char) (counter : Nat) (s : List Char) :
    List Char × Nat × List (List Char) :=
  match matchLine s with
  | none => (s, counter, [])
  | some m =>
    let counter' := counter + 1
    let prefixed_name := lessvarName pfx counter' m.g2
    if ' ' ∈ m.g5 then
      let shorthand := splitOnSpace m.g5
      let important := shorthand.getLastD [] == important_text
      let sh2 := if important then shorthand.dropLast else shorthand
      let p := shorthandLoop prefixed_name counter' (important && (sh2.length == 1)) sh2 0 [] []
      (m.g1 ++ m.g2 ++ m.g3 ++ ":".data ++ m.g4 ++ pyStrip p.2 ++
         (if important then ' ' :: important_text else []) ++ m.g6 ++ ";".data ++ m.g7,
       counter',
       [pyStrip p.1])
    else
      (m.g1 ++ m.g2 ++ m.g3 ++ ":".data ++ m.g4 ++ prefixed_name ++ m.g6 ++ ";".data ++ m.g7,
       counter',
       [prefixed_name ++ ": ".data ++ m.g5 ++ ";".data])

/-- The loop `for line in reversed(lines):` of `extract_variables`.  The
source walks the lines bottom-up, threading `counter` (starting at 0) and
appending to `variables`; here the recursion processes the tail (the later
lines) first, so the threading order is identical.  Returns the rewritten
lines in original order, the final counter, and the `variables` list in
its accumulation (bottom-up) order. -/
def extractLines (pfx : List Char) (c0 : Nat) :
    List (List Char) → List (List Char) × Nat × List (List Char)
  | [] => ([], c0, [])
  | l :: rest =>
    let r := extractLines pfx c0 rest
    let p := processLine pfx r.2.1 l
    (p.1 :: r.1, p.2.1, r.2.2 ++ p.2.2)

/-- Number of lines that match the declaration pattern (later lines first,
matching the processing order). -/
def countMatched : List (List Char) → Nat
  | [] => 0
  | l :: rest => countMatched rest + (if (matchLine l).isSome then 1 else 0)

/-- One region pass of `extract_variables`: counter starts at 0; returns
the rewritten lines (original order) and the accumulated `variables`
list in its bottom-up accumulation order. -/
def extract_variables (pfx : List Char) (lines : List (List Char)) :
    List (List Char) × List (List Char) :=
  ((extractLines pfx 0 lines).1, (extractLines pfx 0 lines).2.2)

/-- The prepended block `"\n".join(reversed(variables)) + '\n\n'`. -/
def variables_output (vars : List (List Char)) : List Char :=
  joinSep "\n".data vars.reverse ++ "\n\n".data

/-- The whole document after one region pass: the region's lines are
replaced in place (`view.replace` on each line region), and, if any
variables were produced, `variables_output` is inserted at absolute
position 0 of the document (`view.insert(edit, 0, ...)`), not at the
start of the region.  `bef` and `aft` are the document text before and
after the selected whole-line region. -/
def documentAfter (pfx bef : List Char) (lines : List (List Char)) (aft : List Char) :
    List Char :=
  let r := extract_variables pfx lines
  let body := bef ++ joinSep "\n".data r.1 ++ aft
  if r.2 = [] then body else variables_output r.2 ++ body

/-- The `run` command's loop over the selections: each (non-empty) region
is handed to `extract_variables` independently, with its own counter. -/
def runCommandRegions (pfx : List Char) (regions : List (List (List Char))) :
    List (List (List Char) × List (List Char)) :=
  regions.map (fun r => extract_variables pfx r)

/-! ## Soundness of the matcher

Every match produced by `matchLine` decomposes the line into the seven
groups with the structural constraints of the pattern: the groups
concatenate (with the literal `:` and `;`) back to the line, group 2 and
group 5 are nonempty, group 5 is `@`-free, and the whitespace groups are
whitespace. -/

theorem runSplits_mem {p : Char → Bool} :
    ∀ {s : List Char} {q : List Char × List Char},
      q ∈ runSplits p s → q.1 ++ q.2 = s ∧ q.1.all p = true := by
  intro s
  induction s with
  | nil =>
    intro q hq
    simp only [runSplits, List.mem_singleton] at hq
    subst hq
    exact ⟨rfl, rfl⟩
  | cons c rest ih =>
    intro q hq
    by_cases hp : p c
    · simp only [runSplits, hp, if_true, List.mem_append, List.mem_map,
        List.mem_singleton] at hq
      rcases hq with ⟨w, hw, hwq⟩ | hq
      · obtain ⟨h1, h2⟩ := ih hw
        subst hwq
        refine ⟨?_, ?_⟩
        · simp [h1]
        · simp [List.all_cons, hp, h2]
      · subst hq
        exact ⟨rfl, rfl⟩
    · simp only [runSplits, hp, Bool.false_eq_true, if_false, List.mem_singleton] at hq
      subst hq
      exact ⟨rfl, rfl⟩

theorem splitsDesc_mem {s : List Char} {q : List Char × List Char}
    (hq : q ∈ splitsDesc s) : q.1 ++ q.2 = s := by
  simp only [splitsDesc, List.mem_map, List.mem_reverse, List.mem_range] at hq
  obtain ⟨k, _, rfl⟩ := hq
  exact List.take_append_drop k s

theorem matchTail_sound {t : List Char}
    {q : List Char × List Char × List Char × List Char}
    (h : matchTail t = some q) :
    t = q.1 ++ q.2.1 ++ q.2.2.1 ++ ';' :: q.2.2.2 ∧ q.2.1 ≠ [] ∧
      q.1.all isPySpace = true ∧ q.2.1.all (fun c => !(c == '@')) = true ∧
      q.2.2.1.all isPySpace = true := by
  obtain ⟨a, ha, hfa⟩ := List.exists_of_findSome?_eq_some h
  obtain ⟨hsa, hwa⟩ := runSplits_mem ha
  obtain ⟨b, hb, hfb⟩ := List.exists_of_findSome?_eq_some hfa
  obtain ⟨hsb, hwb⟩ := runSplits_mem hb
  by_cases hbe : b.1 = []
  · rw [if_pos hbe] at hfb
    exact absurd hfb (by simp)
  rw [if_neg hbe] at hfb
  obtain ⟨d, hd, hfd⟩ := List.exists_of_findSome?_eq_some hfb
  obtain ⟨hsd, hwd⟩ := runSplits_mem hd
  cases hd2 : d.2 with
  | nil =>
    rw [hd2] at hfd
    exact absurd hfd (by simp)
  | cons c g7 =>
    rw [hd2] at hfd
    simp only [] at hfd
    by_cases hc : c = ';'
    · rw [if_pos hc] at hfd
      have hq : q = (a.1, b.1, d.1, g7) := (Option.some.inj hfd).symm
      subst hq
      subst hc
      refine ⟨?_, hbe, hwa, hwb, hwd⟩
      calc t = a.1 ++ a.2 := hsa.symm
        _ = a.1 ++ (b.1 ++ b.2) := by rw [hsb]
        _ = a.1 ++ (b.1 ++ (d.1 ++ d.2)) := by rw [hsd]
        _ = a.1 ++ b.1 ++ d.1 ++ ';' :: g7 := by rw [hd2]; simp [List.append_assoc]
    · rw [if_neg hc] at hfd
      exact absurd hfd (by simp)

theorem matchLine_sound {s : List Char} {m : LineMatch}
    (h : matchLine s = some m) :
    s = m.g1 ++ m.g2 ++ m.g3 ++ ':' :: (m.g4 ++ m.g5 ++ m.g6 ++ ';' :: m.g7) ∧
      m.g2 ≠ [] ∧ m.g5 ≠ [] ∧
      m.g1.all isPySpace = true ∧ m.g3.all isPySpace = true ∧
      m.g4.all isPySpace = true ∧ m.g5.all (fun c => !(c == '@')) = true ∧
      m.g6.all isPySpace = true := by
  obtain ⟨a, ha, hfa⟩ := List.exists_of_findSome?_eq_some h
  obtain ⟨hsa, hwa⟩ := runSplits_mem ha
  obtain ⟨b, hb, hfb⟩ := List.exists_of_findSome?_eq_some hfa
  have hsb := splitsDesc_mem hb
  by_cases hbe : b.1 = []
  · rw [if_pos hbe] at hfb
    exact absurd hfb (by simp)
  rw [if_neg hbe] at hfb
  obtain ⟨d, hd, hfd⟩ := List.exists_of_findSome?_eq_some hfb
  obtain ⟨hsd, hwd⟩ := runSplits_mem hd
  cases hd2 : d.2 with
  | nil =>
    rw [hd2] at hfd
    exact absurd hfd (by simp)
  | cons c t =>
    rw [hd2] at hfd
    simp only [] at hfd
    by_cases hc : c = ':'
    · rw [if_pos hc] at hfd
      rw [Option.map_eq_some'] at hfd
      obtain ⟨w, hw, hm⟩ := hfd
      obtain ⟨hts, hw5, hw4, hw5a, hw6⟩ := matchTail_sound hw
      subst hm
      subst hc
      refine ⟨?_, hbe, hw5, hwa, hwd, hw4, hw5a, hw6⟩
      calc s = a.1 ++ a.2 := hsa.symm
        _ = a.1 ++ (b.1 ++ b.2) := by rw [hsb]
        _ = a.1 ++ (b.1 ++ (d.1 ++ d.2)) := by rw [hsd]
        _ = a.1 ++ (b.1 ++ (d.1 ++ ':' :: t)) := by rw [hd2]
        _ = a.1 ++ b.1 ++ d.1 ++
              ':' :: (w.1 ++ w.2.1 ++ w.2.2.1 ++ ';' :: w.2.2.2) := by
            rw [← hts]; simp [List.append_assoc]
    · rw [if_neg hc] at hfd
      exact absurd hfd (by simp)

/-! ## Helper lemmas about the string utilities -/

/-- The list ends with a non-whitespace character. -/
def endsNotSpace (s : List Char) : Bool := headNotSpace s.reverse

theorem isPySpace_decChar (n : Nat) : isPySpace (decChar n) = false := by
  have h : n % 10 < 10 := Nat.mod_lt _ (by norm_num)
  unfold decChar
  set k := n % 10 with hk
  interval_cases k <;> decide

theorem headNotSpace_append {s : List Char} (t : List Char)
    (h : headNotSpace s = true) : headNotSpace (s ++ t) = true := by
  cases s with
  | nil => simp [headNotSpace] at h
  | cons c cs => simpa [headNotSpace] using h

theorem endsNotSpace_append (s : List Char) {t : List Char}
    (h : endsNotSpace t = true) : endsNotSpace (s ++ t) = true := by
  unfold endsNotSpace at h ⊢
  rw [List.reverse_append]
  exact headNotSpace_append _ h

theorem endsNotSpace_snoc (x : List Char) {c : Char}
    (h : isPySpace c = false) : endsNotSpace (x ++ [c]) = true := by
  unfold endsNotSpace
  rw [List.reverse_append]
  simp [headNotSpace, h]

theorem natChars_ne_nil (n : Nat) : natChars n ≠ [] := by
  unfold natChars natCharsAux
  split <;> simp

theorem endsNotSpace_natChars (n : Nat) : endsNotSpace (natChars n) = true := by
  unfold natChars natCharsAux
  split
  · exact endsNotSpace_snoc [] (isPySpace_decChar n)
  · exact endsNotSpace_snoc _ (isPySpace_decChar n)

theorem dropWhile_of_headNotSpace {s : List Char} (h : headNotSpace s = true) :
    s.dropWhile isPySpace = s := by
  cases s with
  | nil => rfl
  | cons c t =>
    have hc : isPySpace c = false := by simpa [headNotSpace] using h
    simp [List.dropWhile_cons, hc]

theorem pyStrip_of_clean {s : List Char} (h1 : headNotSpace s = true)
    (h2 : endsNotSpace s = true) : pyStrip s = s := by
  unfold pyStrip
  rw [dropWhile_of_headNotSpace h1, dropWhile_of_headNotSpace h2,
    List.reverse_reverse]

theorem pyStrip_cons_space (s : List Char) : pyStrip (' ' :: s) = pyStrip s := by
  unfold pyStrip
  rw [List.dropWhile_cons, if_pos (by decide : isPySpace ' ' = true)]

theorem pyStrip_append_newline {s : List Char} (h1 : headNotSpace s = true)
    (h2 : endsNotSpace s = true) : pyStrip (s ++ ['\n']) = s := by
  unfold pyStrip
  rw [dropWhile_of_headNotSpace (headNotSpace_append _ h1), List.reverse_append]
  have h3 : (['\n'] : List Char).reverse ++ s.reverse = '\n' :: s.reverse := rfl
  rw [h3, List.dropWhile_cons, if_pos (by decide : isPySpace '\n' = true),
    dropWhile_of_headNotSpace (show headNotSpace s.reverse = true from h2),
    List.reverse_reverse]

theorem splitOnSpace_ne_nil (s : List Char) : splitOnSpace s ≠ [] := by
  cases s with
  | nil => simp [splitOnSpace]
  | cons c rest =>
    simp only [splitOnSpace]
    split <;> simp

theorem splitOnSpace_length_two {s : List Char} (h : ' ' ∈ s) :
    2 ≤ (splitOnSpace s).length := by
  induction s with
  | nil => simp at h
  | cons c rest ih =>
    simp only [splitOnSpace]
    by_cases hc : c = ' '
    · rw [if_pos hc]
      have := List.length_pos.mpr (splitOnSpace_ne_nil rest)
      simp only [List.length_cons]
      omega
    · rw [if_neg hc]
      have hr : ' ' ∈ rest := by
        rcases List.mem_cons.mp h with h1 | h1
        · exact absurd h1.symm hc
        · exact h1
      have h2 := ih hr
      have h3 := List.length_pos.mpr (splitOnSpace_ne_nil rest)
      simp only [List.length_cons, List.length_tail]
      omega

theorem getLastD_beq_true {tokens : List (List Char)}
    (h : tokens.getLast? = some important_text) :
    (tokens.getLastD [] == important_text) = true := by
  rw [List.getLastD_eq_getLast?, h]
  simp

theorem getLastD_beq_false {tokens : List (List Char)} (hne : tokens ≠ [])
    (h : tokens.getLast? ≠ some important_text) :
    (tokens.getLastD [] == important_text) = false := by
  rw [List.getLastD_eq_getLast?]
  cases hl : tokens.getLast? with
  | none => exact absurd (List.getLast?_eq_none_iff.mp hl) hne
  | some x =>
    rw [hl] at h
    have hx : x ≠ important_text := fun he => h (he ▸ rfl)
    simpa using hx

/-! ## Closed form of the shorthand loop -/

/-- The sub-variable names produced for `n` consecutive tokens when the
shorthand counter starts at `sc` (so the first name has index `sc + 1`). -/
def subNamesFrom (base : List Char) (cnt : Nat) : Nat → Nat → List (List Char)
  | _, 0 => []
  | sc, n + 1 => subName base cnt (sc + 1) :: subNamesFrom base cnt (sc + 1) n

/-- The declaration lines `name + ': ' + value + ';'` for paired names and
token values. -/
def declLines (names vals : List (List Char)) : List (List Char) :=
  List.zipWith (fun nm v => nm ++ ": ".data ++ v ++ ";".data) names vals

theorem shorthandLoop_closed (base : List Char) (cnt : Nat) :
    ∀ (vs : List (List Char)) (v sv sr : List Char) (sc : Nat),
      shorthandLoop base cnt false (v :: vs) sc sv sr =
        (sv ++ joinSep "\n".data
            (declLines (subNamesFrom base cnt sc (vs.length + 1)) (v :: vs)) ++ "\n".data,
         sr ++ ' ' :: joinSep " ".data (subNamesFrom base cnt sc (vs.length + 1))) := by
  intro vs
  induction vs with
  | nil =>
    intro v sv sr sc
    simp [shorthandLoop, subNamesFrom, declLines, joinSep, List.append_assoc]
  | cons v2 rest ih =>
    intro v sv sr sc
    have step : shorthandLoop base cnt false (v :: v2 :: rest) sc sv sr
        = shorthandLoop base cnt false (v2 :: rest) (sc + 1)
            (sv ++ subName base cnt (sc + 1) ++ ": ".data ++ v ++ [';', '\n'])
            (sr ++ ' ' :: subName base cnt (sc + 1)) := rfl
    rw [step, ih]
    simp [subNamesFrom, declLines, joinSep, List.append_assoc]

theorem shorthandLoop_special (base : List Char) (cnt : Nat)
    (v sv sr : List Char) (sc : Nat) :
    shorthandLoop base cnt true [v] sc sv sr =
      (sv ++ base ++ ": ".data ++ v ++ [';', '\n'], sr ++ ' ' :: base) := by
  simp [shorthandLoop, List.append_assoc]

theorem headNotSpace_lessvarName {pfx : List Char} (h : headNotSpace pfx = true)
    (cnt : Nat) (prop : List Char) : headNotSpace (lessvarName pfx cnt prop) = true := by
  unfold lessvarName
  exact headNotSpace_append _
    (headNotSpace_append _ (headNotSpace_append _ (headNotSpace_append _ h)))

theorem endsNotSpace_lessvarName (pfx : List Char) (cnt : Nat) {prop : List Char}
    (h : endsNotSpace prop = true) : endsNotSpace (lessvarName pfx cnt prop) = true := by
  unfold lessvarName
  exact endsNotSpace_append _ h

theorem headNotSpace_subName {base : List Char} (h : headNotSpace base = true)
    (cnt k : Nat) : headNotSpace (subName base cnt k) = true := by
  unfold subName
  exact headNotSpace_append _
    (headNotSpace_append _ (headNotSpace_append _ (headNotSpace_append _ h)))

theorem endsNotSpace_subName (base : List Char) (cnt k : Nat) :
    endsNotSpace (subName base cnt k) = true := by
  unfold subName
  exact endsNotSpace_append _ (endsNotSpace_natChars k)

theorem headNotSpace_joinSep (sep : List Char) (ps : List (List Char))
    {p : List Char} (h : headNotSpace p = true) :
    headNotSpace (joinSep sep (p :: ps)) = true := by
  cases ps with
  | nil => exact h
  | cons q rest => exact headNotSpace_append _ (headNotSpace_append _ h)

theorem endsNotSpace_joinSep (sep : List Char) :
    ∀ (ps : List (List Char)), (∀ p ∈ ps, endsNotSpace p = true) → ps ≠ [] →
      endsNotSpace (joinSep sep ps) = true := by
  intro ps
  induction ps with
  | nil => intro _ h; exact absurd rfl h
  | cons p rest ih =>
    intro hall _
    cases rest with
    | nil => exact hall p (by simp)
    | cons q rest2 =>
      have hj : joinSep sep (p :: q :: rest2) = (p ++ sep) ++ joinSep sep (q :: rest2) := by
        simp [joinSep, List.append_assoc]
      rw [hj]
      exact endsNotSpace_append _
        (ih (fun x hx => hall x (List.mem_cons_of_mem _ hx)) (by simp))

theorem endsNotSpace_declLines : ∀ (names vals : List (List Char)) (p : List Char),
    p ∈ declLines names vals → endsNotSpace p = true := by
  intro names
  induction names with
  | nil => intro vals p hp; simp [declLines] at hp
  | cons nm rest ih =>
    intro vals p hp
    cases vals with
    | nil => simp [declLines] at hp
    | cons v vrest =>
      simp only [declLines, List.zipWith_cons_cons, List.mem_cons] at hp
      rcases hp with rfl | hp
      · exact endsNotSpace_snoc (nm ++ ": ".data ++ v) (by decide)
      · exact ih vrest p hp

theorem endsNotSpace_subNamesFrom (base : List Char) (cnt : Nat) :
    ∀ (n sc : Nat) (nm : List Char), nm ∈ subNamesFrom base cnt sc n →
      endsNotSpace nm = true := by
  intro n
  induction n with
  | zero => intro sc nm h; simp [subNamesFrom] at h
  | succ k ih =>
    intro sc nm h
    simp only [subNamesFrom, List.mem_cons] at h
    rcases h with rfl | h
    · exact endsNotSpace_subName base cnt (sc + 1)
    · exact ih (sc + 1) nm h

/-! ## Equations for the per-line processing -/

theorem processLine_none {pfx : List Char} {c : Nat} {s : List Char}
    (h : matchLine s = none) : processLine pfx c s = (s, c, []) := by
  simp [processLine, h]

theorem processLine_simple {pfx : List Char} {c : Nat} {s : List Char} {m : LineMatch}
    (h : matchLine s = some m) (hns : ' ' ∉ m.g5) :
    processLine pfx c s =
      (m.g1 ++ m.g2 ++ m.g3 ++ ":".data ++ m.g4 ++ lessvarName pfx (c + 1) m.g2 ++
         m.g6 ++ ";".data ++ m.g7,
       c + 1,
       [lessvarName pfx (c + 1) m.g2 ++ ": ".data ++ m.g5 ++ ";".data]) := by
  simp [processLine, h, hns]

theorem processLine_compound {pfx : List Char} {c : Nat} {s : List Char} {m : LineMatch}
    (h : matchLine s = some m) (hsp : ' ' ∈ m.g5)
    (hni : (splitOnSpace m.g5).getLast? ≠ some important_text)
    (hpfx : headNotSpace pfx = true) :
    processLine pfx c s =
      (m.g1 ++ m.g2 ++ m.g3 ++ ":".data ++ m.g4 ++
         joinSep " ".data
           (subNamesFrom (lessvarName pfx (c + 1) m.g2) (c + 1) 0
             (splitOnSpace m.g5).length) ++
         m.g6 ++ ";".data ++ m.g7,
       c + 1,
       [joinSep "\n".data
          (declLines
            (subNamesFrom (lessvarName pfx (c + 1) m.g2) (c + 1) 0
              (splitOnSpace m.g5).length)
            (splitOnSpace m.g5))]) := by
  have hne := splitOnSpace_ne_nil m.g5
  have himp : ((splitOnSpace m.g5).getLastD [] == important_text) = false :=
    getLastD_beq_false hne hni
  have hlen := splitOnSpace_length_two hsp
  obtain ⟨t1, t2, ts, htok⟩ : ∃ t1 t2 ts, splitOnSpace m.g5 = t1 :: t2 :: ts := by
    cases h1 : splitOnSpace m.g5 with
    | nil => exact absurd h1 hne
    | cons x rest =>
      cases rest with
      | nil => rw [h1] at hlen; simp at hlen
      | cons y rest2 => exact ⟨x, y, rest2, rfl⟩
  simp only [processLine, h]
  rw [if_pos hsp, himp]
  simp only [Bool.false_eq_true, if_false, Bool.false_and, htok]
  rw [shorthandLoop_closed]
  simp only [List.nil_append, List.length_cons]
  set base := lessvarName pfx (c + 1) m.g2 with hbdef
  set names := subNamesFrom base (c + 1) 0 (ts.length + 1 + 1) with hndef
  have hcons : names = subName base (c + 1) 1 ::
      subNamesFrom base (c + 1) 1 (ts.length + 1) := by
    rw [hndef]
    rfl
  have hb : headNotSpace base = true := headNotSpace_lessvarName hpfx _ _
  have hn1 : headNotSpace (subName base (c + 1) 1) = true := headNotSpace_subName hb _ _
  have hallN : ∀ nm ∈ names, endsNotSpace nm = true := by
    intro nm hm
    rw [hndef] at hm
    exact endsNotSpace_subNamesFrom base (c + 1) _ _ nm hm
  have hnamesne : names ≠ [] := by rw [hcons]; simp
  have hJn : headNotSpace (joinSep " ".data names) = true := by
    rw [hcons]
    exact headNotSpace_joinSep _ _ hn1
  have hJe : endsNotSpace (joinSep " ".data names) = true :=
    endsNotSpace_joinSep _ _ hallN hnamesne
  have hrepl : pyStrip (' ' :: joinSep " ".data names) = joinSep " ".data names := by
    rw [pyStrip_cons_space]
    exact pyStrip_of_clean hJn hJe
  have hdcons : declLines names (t1 :: t2 :: ts) =
      (subName base (c + 1) 1 ++ ": ".data ++ t1 ++ ";".data) ::
        declLines (subNamesFrom base (c + 1) 1 (ts.length + 1)) (t2 :: ts) := by
    rw [hcons]
    rfl
  have hDne : declLines names (t1 :: t2 :: ts) ≠ [] := by rw [hdcons]; simp
  have hDh : headNotSpace (joinSep "\n".data (declLines names (t1 :: t2 :: ts))) = true := by
    rw [hdcons]
    exact headNotSpace_joinSep _ _
      (headNotSpace_append _ (headNotSpace_append _ (headNotSpace_append _ hn1)))
  have hDe : endsNotSpace (joinSep "\n".data (declLines names (t1 :: t2 :: ts))) = true :=
    endsNotSpace_joinSep _ _ (fun p hp => endsNotSpace_declLines _ _ p hp) hDne
  have hdecl : pyStrip (joinSep "\n".data (declLines names (t1 :: t2 :: ts)) ++ "\n".data) =
      joinSep "\n".data (declLines names (t1 :: t2 :: ts)) := by
    have hnl : ("\n".data : List Char) = ['\n'] := rfl
    rw [hnl]
    exact pyStrip_append_newline hDh hDe
  rw [hrepl, hdecl]
  simp only [List.append_nil]

theorem processLine_compound_important {pfx : List Char} {c : Nat} {s : List Char}
    {m : LineMatch} (h : matchLine s = some m) (hsp : ' ' ∈ m.g5)
    (himp : (splitOnSpace m.g5).getLast? = some important_text)
    (hlen : 2 ≤ (splitOnSpace m.g5).dropLast.length)
    (hpfx : headNotSpace pfx = true) :
    processLine pfx c s =
      (m.g1 ++ m.g2 ++ m.g3 ++ ":".data ++ m.g4 ++
         joinSep " ".data
           (subNamesFrom (lessvarName pfx (c + 1) m.g2) (c + 1) 0
             (splitOnSpace m.g5).dropLast.length) ++
         ' ' :: important_text ++ m.g6 ++ ";".data ++ m.g7,
       c + 1,
       [joinSep "\n".data
          (declLines
            (subNamesFrom (lessvarName pfx (c + 1) m.g2) (c + 1) 0
              (splitOnSpace m.g5).dropLast.length)
            (splitOnSpace m.g5).dropLast)]) := by
  have himpb : ((splitOnSpace m.g5).getLastD [] == important_text) = true :=
    getLastD_beq_true himp
  have hoe : ((splitOnSpace m.g5).dropLast.length == 1) = false :=
    beq_eq_false_iff_ne.mpr (by omega)
  obtain ⟨d1, d2, ds, hd⟩ :
      ∃ d1 d2 ds, (splitOnSpace m.g5).dropLast = d1 :: d2 :: ds := by
    cases h1 : (splitOnSpace m.g5).dropLast with
    | nil => rw [h1] at hlen; simp at hlen
    | cons x rest =>
      cases rest with
      | nil => rw [h1] at hlen; simp at hlen
      | cons y rest2 => exact ⟨x, y, rest2, rfl⟩
  simp only [processLine, h]
  rw [if_pos hsp, himpb]
  simp only [eq_self_iff_true, if_true, Bool.true_and]
  rw [hoe, hd]
  rw [shorthandLoop_closed]
  simp only [List.nil_append, List.length_cons]
  set base := lessvarName pfx (c + 1) m.g2 with hbdef
  set names := subNamesFrom base (c + 1) 0 (ds.length + 1 + 1) with hndef
  have hcons : names = subName base (c + 1) 1 ::
      subNamesFrom base (c + 1) 1 (ds.length + 1) := by
    rw [hndef]
    rfl
  have hb : headNotSpace base = true := headNotSpace_lessvarName hpfx _ _
  have hn1 : headNotSpace (subName base (c + 1) 1) = true := headNotSpace_subName hb _ _
  have hallN : ∀ nm ∈ names, endsNotSpace nm = true := by
    intro nm hm
    rw [hndef] at hm
    exact endsNotSpace_subNamesFrom base (c + 1) _ _ nm hm
  have hnamesne : names ≠ [] := by rw [hcons]; simp
  have hJn : headNotSpace (joinSep " ".data names) = true := by
    rw [hcons]
    exact headNotSpace_joinSep _ _ hn1
  have hJe : endsNotSpace (joinSep " ".data names) = true :=
    endsNotSpace_joinSep _ _ hallN hnamesne
  have hrepl : pyStrip (' ' :: joinSep " ".data names) = joinSep " ".data names := by
    rw [pyStrip_cons_space]
    exact pyStrip_of_clean hJn hJe
  have hdcons : declLines names (d1 :: d2 :: ds) =
      (subName base (c + 1) 1 ++ ": ".data ++ d1 ++ ";".data) ::
        declLines (subNamesFrom base (c + 1) 1 (ds.length + 1)) (d2 :: ds) := by
    rw [hcons]
    rfl
  have hDne : declLines names (d1 :: d2 :: ds) ≠ [] := by rw [hdcons]; simp
  have hDh : headNotSpace (joinSep "\n".data (declLines names (d1 :: d2 :: ds))) = true := by
    rw [hdcons]
    exact headNotSpace_joinSep _ _
      (headNotSpace_append _ (headNotSpace_append _ (headNotSpace_append _ hn1)))
  have hDe : endsNotSpace (joinSep "\n".data (declLines names (d1 :: d2 :: ds))) = true :=
    endsNotSpace_joinSep _ _ (fun p hp => endsNotSpace_declLines _ _ p hp) hDne
  have hdecl : pyStrip (joinSep "\n".data (declLines names (d1 :: d2 :: ds)) ++ "\n".data) =
      joinSep "\n".data (declLines names (d1 :: d2 :: ds)) := by
    have hnl : ("\n".data : List Char) = ['\n'] := rfl
    rw [hnl]
    exact pyStrip_append_newline hDh hDe
  rw [hrepl, hdecl]

theorem processLine_important_single {pfx : List Char} {c : Nat} {s : List Char}
    {m : LineMatch} (h : matchLine s = some m) (hsp : ' ' ∈ m.g5)
    (himp : (splitOnSpace m.g5).getLast? = some important_text)
    (hlen : (splitOnSpace m.g5).length = 2) :
    processLine pfx c s =
      (m.g1 ++ m.g2 ++ m.g3 ++ ":".data ++ m.g4 ++
         pyStrip (' ' :: lessvarName pfx (c + 1) m.g2) ++
         ' ' :: important_text ++ m.g6 ++ ";".data ++ m.g7,
       c + 1,
       [pyStrip (lessvarName pfx (c + 1) m.g2 ++ ": ".data ++
          (splitOnSpace m.g5).headI ++ [';', '\n'])]) := by
  obtain ⟨a, b, hab⟩ : ∃ a b, splitOnSpace m.g5 = [a, b] := by
    cases h1 : splitOnSpace m.g5 with
    | nil => rw [h1] at hlen; simp at hlen
    | cons x rest =>
      cases rest with
      | nil => rw [h1] at hlen; simp at hlen
      | cons y rest2 =>
        cases rest2 with
        | nil => exact ⟨x, y, rfl⟩
        | cons z rest3 => rw [h1] at hlen; simp at hlen
  have himpb : ((splitOnSpace m.g5).getLastD [] == important_text) = true :=
    getLastD_beq_true himp
  simp only [processLine, h]
  rw [if_pos hsp, himpb]
  simp only [eq_self_iff_true, if_true, Bool.true_and, hab]
  have hdl : ([a, b] : List (List Char)).dropLast = [a] := rfl
  rw [hdl]
  have hsl : (([a] : List (List Char)).length == 1) = true := rfl
  rw [hsl]
  rw [shorthandLoop_special]
  simp only [List.nil_append]
  rfl

/-! ## The counter threading through a region -/

theorem processLine_counter (pfx : List Char) (c : Nat) (s : List Char) :
    (processLine pfx c s).2.1 = if (matchLine s).isSome then c + 1 else c := by
  cases h : matchLine s with
  | none => simp [processLine, h]
  | some m =>
    simp only [processLine, h, Option.isSome_some, if_true]
    split <;> rfl

theorem extractLines_counter (pfx : List Char) :
    ∀ (lines : List (List Char)) (c0 : Nat),
      (extractLines pfx c0 lines).2.1 = c0 + countMatched lines := by
  intro lines
  induction lines with
  | nil => intro c0; simp [extractLines, countMatched]
  | cons l rest ih =>
    intro c0
    show (processLine pfx (extractLines pfx c0 rest).2.1 l).2.1 =
      c0 + countMatched (l :: rest)
    rw [processLine_counter, ih c0]
    simp only [countMatched]
    cases hm : (matchLine l).isSome <;> simp [hm]
    omega

theorem extractLines_getElem (pfx : List Char) :
    ∀ (pre : List (List Char)) (l : List Char) (post : List (List Char)) (c0 : Nat),
      ((extractLines pfx c0 (pre ++ l :: post)).1)[pre.length]? =
        some (processLine pfx (c0 + countMatched post) l).1 := by
  intro pre
  induction pre with
  | nil =>
    intro l post c0
    show ((processLine pfx (extractLines pfx c0 post).2.1 l).1 ::
        (extractLines pfx c0 post).1)[0]? = _
    rw [List.getElem?_cons_zero, extractLines_counter]
  | cons p0 rest ih =>
    intro l post c0
    show ((processLine pfx (extractLines pfx c0 (rest ++ l :: post)).2.1 p0).1 ::
        (extractLines pfx c0 (rest ++ l :: post)).1)[rest.length + 1]? = _
    rw [List.getElem?_cons_succ]
    exact ih l post c0

/-! ## The claims -/

/-- C1: for every line matching the declaration pattern whose captured value
contains no space character, the extractor appends exactly one declaration
of the form `<base-name>: <value>;` where the base name is
`prefix + "-lessvar" + counter + "-" + property`, and rewrites the line with
only the value span replaced by the base name. -/
theorem claim_C1 (pfx : List Char) (c : Nat) (s : List Char) (m : LineMatch)
    (h : matchLine s = some m) (hns : ' ' ∉ m.g5) :
    s = (m.g1 ++ m.g2 ++ m.g3 ++ ":".data ++ m.g4) ++ m.g5 ++
        (m.g6 ++ ";".data ++ m.g7) ∧
    processLine pfx c s =
      ((m.g1 ++ m.g2 ++ m.g3 ++ ":".data ++ m.g4) ++ lessvarName pfx (c + 1) m.g2 ++
         (m.g6 ++ ";".data ++ m.g7),
       c + 1,
       [lessvarName pfx (c + 1) m.g2 ++ ": ".data ++ m.g5 ++ ";".data]) := by
  constructor
  · rw [(matchLine_sound h).1]
    simp [List.append_assoc]
  · rw [processLine_simple h hns]
    simp [List.append_assoc]

/-- Witness for C1 at the spec's example: input line
`"  color: red; // accent"` with prefix `@x` processed at counter value 1
yields output line `"  color: @x-lessvar1-color; // accent"` and declaration
`"@x-lessvar1-color: red;"`. -/
theorem claim_C1_witness :
    processLine "@x".data 0 "  color: red; // accent".data =
      ("  color: @x-lessvar1-color; // accent".data, 1,
       ["@x-lessvar1-color: red;".data]) := by
  have h := claim_C1 "@x".data 0 "  color: red; // accent".data
    ⟨"  ".data, "color".data, [], " ".data, "red".data, [], " // accent".data⟩
    (by decide) (by decide)
  exact h.2.trans (by decide)

/-- C3: for every matched simple-value line, the reconstructed output line is
byte-identical to the input line except for the value span being replaced:
all captured spans around the value are reproduced verbatim. -/
theorem claim_C3 (pfx : List Char) (c : Nat) (s : List Char) (m : LineMatch)
    (h : matchLine s = some m) (hns : ' ' ∉ m.g5) :
    ∃ A B, s = A ++ m.g5 ++ B ∧
      (processLine pfx c s).1 = A ++ lessvarName pfx (c + 1) m.g2 ++ B := by
  refine ⟨m.g1 ++ m.g2 ++ m.g3 ++ ":".data ++ m.g4, m.g6 ++ ";".data ++ m.g7, ?_, ?_⟩
  · rw [(matchLine_sound h).1]
    simp [List.append_assoc]
  · rw [processLine_simple h hns]
    simp [List.append_assoc]

/-- Witness for C3 on a line with unusual spans (the property capture keeps
its trailing space, the comment span is empty). -/
theorem claim_C3_witness :
    ∃ A B, "margin : 8px;".data = A ++ "8px".data ++ B ∧
      (processLine "@v".data 3 "margin : 8px;".data).1 =
        A ++ lessvarName "@v".data 4 "margin ".data ++ B :=
  claim_C3 "@v".data 3 "margin : 8px;".data
    ⟨[], "margin ".data, [], " ".data, "8px".data, [], []⟩ (by decide) (by decide)

/-- C7: the value group of a match never contains `@` (so lines whose
would-be value span holds a `@` never match), and the lines produced by a
previous extraction pass do not match again and pass through a second run
unchanged (round-trip idempotence on converted lines). -/
theorem claim_C7 :
    (∀ (s : List Char) (m : LineMatch), matchLine s = some m → '@' ∉ m.g5) ∧
    matchLine "  color: @x-lessvar1-color; // accent".data = none ∧
    matchLine ("border: @x-lessvar1-border-lessv1sv1 " ++
      "@x-lessvar1-border-lessv1sv2 @x-lessvar1-border-lessv1sv3;").data = none ∧
    (∀ (pfx : List Char) (c : Nat),
      processLine pfx c "  color: @x-lessvar1-color; // accent".data =
        ("  color: @x-lessvar1-color; // accent".data, c, [])) := by
  refine ⟨?_, by decide, by decide, ?_⟩
  · intro s m h hm
    obtain ⟨-, -, -, -, -, -, h5, -⟩ := matchLine_sound h
    have := List.all_eq_true.mp h5 '@' hm
    simp at this
  · intro pfx c
    exact processLine_none (by decide)

/-- Witness for C7: the value group captured from `"a: b;"` does not
contain `@`. -/
theorem claim_C7_witness :
    '@' ∉ (⟨[], "a".data, [], " ".data, "b".data, [], []⟩ : LineMatch).g5 :=
  claim_C7.1 "a: b;".data _ (by decide)

/-- C8: a line that does not match the declaration pattern passes through
unchanged, produces no declaration, and does not consume a counter value;
there is no error path (the function is total). -/
theorem claim_C8 (pfx : List Char) (c : Nat) (s : List Char)
    (h : matchLine s = none) : processLine pfx c s = (s, c, []) :=
  processLine_none h

/-- Witness for C8 on a line with no colon-value-semicolon shape. -/
theorem claim_C8_witness :
    processLine "@x".data 5 "hello world".data = ("hello world".data, 5, []) :=
  claim_C8 "@x".data 5 "hello world".data (by decide)

/-- C2: for every matched compound value without an importance marker, the
k-th space-split token gets the variable name
`<base-name>-lessv<counter>sv<k>` (the names `subNamesFrom base counter 0 n`
are `base-lessv<counter>sv1 ... base-lessv<counter>svn`), the value span is
replaced by the space-joined token names, and all the token declarations
form one single newline-separated entry of the declarations list. -/
theorem claim_C2 (pfx : List Char) (c : Nat) (s : List Char) (m : LineMatch)
    (h : matchLine s = some m) (hsp : ' ' ∈ m.g5)
    (hni : (splitOnSpace m.g5).getLast? ≠ some important_text)
    (hpfx : headNotSpace pfx = true) :
    s = (m.g1 ++ m.g2 ++ m.g3 ++ ":".data ++ m.g4) ++ m.g5 ++
        (m.g6 ++ ";".data ++ m.g7) ∧
    processLine pfx c s =
      ((m.g1 ++ m.g2 ++ m.g3 ++ ":".data ++ m.g4) ++
         joinSep " ".data
           (subNamesFrom (lessvarName pfx (c + 1) m.g2) (c + 1) 0
             (splitOnSpace m.g5).length) ++
         (m.g6 ++ ";".data ++ m.g7),
       c + 1,
       [joinSep "\n".data
          (declLines
            (subNamesFrom (lessvarName pfx (c + 1) m.g2) (c + 1) 0
              (splitOnSpace m.g5).length)
            (splitOnSpace m.g5))]) := by
  constructor
  · rw [(matchLine_sound h).1]
    simp [List.append_assoc]
  · rw [processLine_compound h hsp hni hpfx]
    simp [List.append_assoc]

/-- Witness for C2 at the spec's example: `"border: 1px solid black;"` with
prefix `@x` at counter 1 yields the three sub-indexed names and one single
declarations entry with embedded newlines. -/
theorem claim_C2_witness :
    processLine "@x".data 0 "border: 1px solid black;".data =
      (("border: @x-lessvar1-border-lessv1sv1 @x-lessvar1-border-lessv1sv2 " ++
          "@x-lessvar1-border-lessv1sv3;").data,
       1,
       [("@x-lessvar1-border-lessv1sv1: 1px;\n@x-lessvar1-border-lessv1sv2: solid;\n" ++
          "@x-lessvar1-border-lessv1sv3: black;").data]) := by
  have h := claim_C2 "@x".data 0 "border: 1px solid black;".data
    ⟨[], "border".data, [], " ".data, "1px solid black".data, [], []⟩
    (by decide) (by decide) (by decide) (by decide)
  exact h.2.trans (by decide)

/-- C5: for a matched compound value whose last token is `!important` and
with exactly one remaining token, the remaining token's variable name is the
base name itself with no sub-index suffix; when the property capture ends in
a non-whitespace character the whole rewritten line keeps the base name
verbatim followed by one space and `!important`. -/
theorem claim_C5 (pfx : List Char) (c : Nat) (s : List Char) (m : LineMatch)
    (h : matchLine s = some m) (hsp : ' ' ∈ m.g5)
    (himp : (splitOnSpace m.g5).getLast? = some important_text)
    (hlen : (splitOnSpace m.g5).length = 2)
    (hpfx : headNotSpace pfx = true) :
    (processLine pfx c s).2.2 =
      [lessvarName pfx (c + 1) m.g2 ++ ": ".data ++ (splitOnSpace m.g5).headI ++
        ";".data] ∧
    (endsNotSpace m.g2 = true →
      processLine pfx c s =
        (m.g1 ++ m.g2 ++ m.g3 ++ ":".data ++ m.g4 ++ lessvarName pfx (c + 1) m.g2 ++
           ' ' :: important_text ++ m.g6 ++ ";".data ++ m.g7,
         c + 1,
         [lessvarName pfx (c + 1) m.g2 ++ ": ".data ++ (splitOnSpace m.g5).headI ++
            ";".data])) := by
  have hb : headNotSpace (lessvarName pfx (c + 1) m.g2) = true :=
    headNotSpace_lessvarName hpfx _ _
  have hsv : lessvarName pfx (c + 1) m.g2 ++ ": ".data ++ (splitOnSpace m.g5).headI ++
      [';', '\n'] =
      (lessvarName pfx (c + 1) m.g2 ++ ": ".data ++ (splitOnSpace m.g5).headI ++
        [';']) ++ ['\n'] := by
    simp [List.append_assoc]
  have hdecl : pyStrip (lessvarName pfx (c + 1) m.g2 ++ ": ".data ++
      (splitOnSpace m.g5).headI ++ [';', '\n']) =
      lessvarName pfx (c + 1) m.g2 ++ ": ".data ++ (splitOnSpace m.g5).headI ++
        [';'] := by
    rw [hsv]
    exact pyStrip_append_newline
      (headNotSpace_append _ (headNotSpace_append _ (headNotSpace_append _ hb)))
      (endsNotSpace_snoc _ (by decide))
  constructor
  · rw [processLine_important_single h hsp himp hlen]
    simp only [hdecl]
  · intro hg2
    rw [processLine_important_single h hsp himp hlen]
    have hrepl : pyStrip (' ' :: lessvarName pfx (c + 1) m.g2) =
        lessvarName pfx (c + 1) m.g2 := by
      rw [pyStrip_cons_space]
      exact pyStrip_of_clean hb (endsNotSpace_lessvarName _ _ hg2)
    rw [hrepl, hdecl]

/-- Witness for C5 at the spec's example: `"color: black !important;"` with
prefix `@x` at counter 2 yields output `"color: @x-lessvar2-color !important;"`
and the single declaration `"@x-lessvar2-color: black;"`. -/
theorem claim_C5_witness :
    processLine "@x".data 1 "color: black !important;".data =
      ("color: @x-lessvar2-color !important;".data, 2,
       ["@x-lessvar2-color: black;".data]) := by
  have h := claim_C5 "@x".data 1 "color: black !important;".data
    ⟨[], "color".data, [], " ".data, "black !important".data, [], []⟩
    (by decide) (by decide) (by decide) (by decide) (by decide)
  exact (h.2 (by decide)).trans (by decide)

/-- C6 counterexample: on `"color: black !important;"` (one remaining token
after removing `!important`) the remaining token does not receive a
sub-indexed variable, contradicting "all other tokens receive sub-indexed
variables as usual": the declaration uses the bare base name. -/
theorem claim_C6_counterexample :
    (processLine "@x".data 1 "color: black !important;".data).2.2 =
      ["@x-lessvar2-color: black;".data] ∧
    (processLine "@x".data 1 "color: black !important;".data).2.2 ≠
      ["@x-lessvar2-color-lessv2sv1: black;".data] := by
  constructor <;> decide

/-- C6 (amended): for every matched compound value whose last space-split
token is exactly `!important`, that token is removed before sub-variable
generation, never receives a declaration variable of its own, and is
re-appended literally exactly once after the joined variable names,
separated by one space; the other tokens receive sub-indexed variables
whenever at least two of them remain (with exactly one remaining token the
bare base name is used instead, per the single-token special case). -/
theorem claim_C6_amended (pfx : List Char) (c : Nat) (s : List Char) (m : LineMatch)
    (h : matchLine s = some m) (hsp : ' ' ∈ m.g5)
    (himp : (splitOnSpace m.g5).getLast? = some important_text)
    (hlen : 2 ≤ (splitOnSpace m.g5).dropLast.length)
    (hpfx : headNotSpace pfx = true) :
    s = (m.g1 ++ m.g2 ++ m.g3 ++ ":".data ++ m.g4) ++ m.g5 ++
        (m.g6 ++ ";".data ++ m.g7) ∧
    processLine pfx c s =
      ((m.g1 ++ m.g2 ++ m.g3 ++ ":".data ++ m.g4) ++
         joinSep " ".data
           (subNamesFrom (lessvarName pfx (c + 1) m.g2) (c + 1) 0
             (splitOnSpace m.g5).dropLast.length) ++
         (' ' :: important_text) ++ (m.g6 ++ ";".data ++ m.g7),
       c + 1,
       [joinSep "\n".data
          (declLines
            (subNamesFrom (lessvarName pfx (c + 1) m.g2) (c + 1) 0
              (splitOnSpace m.g5).dropLast.length)
            (splitOnSpace m.g5).dropLast)]) := by
  constructor
  · rw [(matchLine_sound h).1]
    simp [List.append_assoc]
  · rw [processLine_compound_important h hsp himp hlen hpfx]
    simp [List.append_assoc]

/-- Witness for C6 at the spec's multi-token example:
`"border: 1px solid black !important;"` gets sub-indexed names with
`!important` re-appended literally once and not decomposed. -/
theorem claim_C6_witness :
    processLine "@x".data 0 "border: 1px solid black !important;".data =
      (("border: @x-lessvar1-border-lessv1sv1 @x-lessvar1-border-lessv1sv2 " ++
          "@x-lessvar1-border-lessv1sv3 !important;").data,
       1,
       [("@x-lessvar1-border-lessv1sv1: 1px;\n@x-lessvar1-border-lessv1sv2: solid;\n" ++
          "@x-lessvar1-border-lessv1sv3: black;").data]) := by
  have h := claim_C6_amended "@x".data 0 "border: 1px solid black !important;".data
    ⟨[], "border".data, [], " ".data, "1px solid black !important".data, [], []⟩
    (by decide) (by decide) (by decide) (by decide) (by decide)
  exact h.2.trans (by decide)

/-- C4: after a region is processed, the declarations are inserted at
absolute document position zero if and only if the declarations list is
nonempty; the backward-accumulated list is reversed before joining with
single newlines (original top-to-bottom order) and exactly two newlines
follow it.  The witness demonstrates insertion before a nonempty document
part that precedes the region. -/
theorem claim_C4 (pfx bef : List Char) (lines : List (List Char)) (aft : List Char) :
    ((extract_variables pfx lines).2 = [] →
      documentAfter pfx bef lines aft =
        bef ++ joinSep "\n".data (extract_variables pfx lines).1 ++ aft) ∧
    ((extract_variables pfx lines).2 ≠ [] →
      documentAfter pfx bef lines aft =
        (joinSep "\n".data (extract_variables pfx lines).2.reverse ++ "\n\n".data) ++
          (bef ++ joinSep "\n".data (extract_variables pfx lines).1 ++ aft)) := by
  constructor
  · intro h
    simp [documentAfter, h]
  · intro h
    simp [documentAfter, variables_output, h, List.append_assoc]

/-- Witness for C4: a two-line region in the middle of a document; the
declaration block (top-down order, two trailing newlines) is prepended at
position zero, before the document text `"p {}\n"` that precedes the
region. -/
theorem claim_C4_witness :
    documentAfter "@x".data "p \x7b\x7d\n".data ["a: red;".data, "b: blue;".data]
        "\nq \x7b\x7d".data =
      ("@x-lessvar2-a: red;\n@x-lessvar1-b: blue;\n\n" ++
        "p \x7b\x7d\na: @x-lessvar2-a;\nb: @x-lessvar1-b;\nq \x7b\x7d").data := by
  have h := (claim_C4 "@x".data "p \x7b\x7d\n".data ["a: red;".data, "b: blue;".data]
    "\nq \x7b\x7d".data).2 (by decide)
  exact h.trans (by decide)

/-- C9 counterexample: one invocation processing two identical two-line
regions.  The counter does restart per region, but each region's first
matched line (its top line `"a: red;"`) is numbered 2, not 1 — the number 1
goes to the bottom line because lines are processed in reverse order. -/
theorem claim_C9_counterexample :
    runCommandRegions "@x".data
        [["a: red;".data, "b: blue;".data], ["a: red;".data, "b: blue;".data]] =
      [(["a: @x-lessvar2-a;".data, "b: @x-lessvar1-b;".data],
        ["@x-lessvar1-b: blue;".data, "@x-lessvar2-a: red;".data]),
       (["a: @x-lessvar2-a;".data, "b: @x-lessvar1-b;".data],
        ["@x-lessvar1-b: blue;".data, "@x-lessvar2-a: red;".data])] ∧
    "a: @x-lessvar2-a;".data ≠ "a: @x-lessvar1-a;".data := by
  constructor <;> decide

/-- C9 (amended): the counter starts at zero for each region, increments by
exactly one per matched line, and is never carried over between regions
(each region of an invocation is processed independently); consequently the
first-processed matched line of each region — the bottom-most one, because
lines are walked in reverse — is numbered 1. -/
theorem claim_C9_amended :
    (∀ (pfx : List Char) (c : Nat) (s : List Char),
      (processLine pfx c s).2.1 = if (matchLine s).isSome then c + 1 else c) ∧
    (∀ (pfx : List Char) (lines : List (List Char)),
      (extractLines pfx 0 lines).2.1 = countMatched lines) ∧
    (∀ (pfx : List Char) (regions : List (List (List Char))),
      runCommandRegions pfx regions =
        regions.map (fun r => ((extractLines pfx 0 r).1, (extractLines pfx 0 r).2.2))) ∧
    (∀ (pfx : List Char) (pre : List (List Char)) (l : List Char)
        (post : List (List Char)), countMatched post = 0 →
      ((extract_variables pfx (pre ++ l :: post)).1)[pre.length]? =
        some (processLine pfx 0 l).1) := by
  refine ⟨processLine_counter, ?_, fun pfx regions => rfl, ?_⟩
  · intro pfx lines
    rw [extractLines_counter]
    omega
  · intro pfx pre l post hpost
    have h := extractLines_getElem pfx pre l post 0
    rw [hpost] at h
    exact h

/-- Witness for C9 (amended): in a region whose trailing lines do not match,
a line is processed with counter zero, so `"b: blue;"` (last matching line)
is numbered 1. -/
theorem claim_C9_amended_witness :
    ((extract_variables "@x".data
        ["a: red;".data, "b: blue;".data, "\x7d".data]).1)[1]? =
      some (processLine "@x".data 0 "b: blue;".data).1 :=
  claim_C9_amended.2.2.2 "@x".data ["a: red;".data] "b: blue;".data ["\x7d".data]
    (by decide)

/-- C10: within a region, the line at position `|pre|` is processed with the
counter equal to the number of matching lines below it, so counter values
are assigned bottom-up: the last matching line gets value 1 and the first
the highest; the emitted declarations block is in top-to-bottom line order
but carries strictly decreasing `lessvar` numbers, as the concrete two-line
region shows. -/
theorem claim_C10 :
    (∀ (pfx : List Char) (pre : List (List Char)) (l : List Char)
        (post : List (List Char)),
      ((extract_variables pfx (pre ++ l :: post)).1)[pre.length]? =
        some (processLine pfx (countMatched post) l).1) ∧
    extract_variables "@x".data ["a: red;".data, "b: blue;".data] =
      (["a: @x-lessvar2-a;".data, "b: @x-lessvar1-b;".data],
       ["@x-lessvar1-b: blue;".data, "@x-lessvar2-a: red;".data]) ∧
    variables_output ["@x-lessvar1-b: blue;".data, "@x-lessvar2-a: red;".data] =
      "@x-lessvar2-a: red;\n@x-lessvar1-b: blue;\n\n".data := by
  refine ⟨?_, by decide, by decide⟩
  intro pfx pre l post
  have h := extractLines_getElem pfx pre l post 0
  rw [Nat.zero_add] at h
  exact h

end LESSExtract
